import Mathlib

/-!
Verification of the query-compilation-and-matching pipeline of the
ai-job-finder repository.

Strings of the Python source are modelled as `List Char` (ASCII semantics:
the character classes of the regular expressions involved — `\s`, `[a-zA-Z]`,
`\w`, `\b` — are modelled for the ASCII range, which covers every literal
appearing in the source and the behaviour of `str.lower`, `str.title`,
`str.strip` on ASCII text).

Sections:
  * character classes and string helpers (`job_filter.py` / `openai_parser.py` text ops)
  * `JobFilter._matches_filters`, `JobFilter.deduplicate_jobs`, `JobFilter._normalize_text`
    from `src/job_filter.py`
  * the local heuristic fallback `local_parse` and the merge in
    `JobQueryParser.parse_query` from `src/openai_parser.py`
  * the source adapters and aggregator from `src/job_sources.py`
-/

/-- Strings are modelled as lists of characters. -/
abbrev Str := List Char

/-- ASCII whitespace, the characters matched by Python's `\s` in the ASCII range. -/
def isWsC (c : Char) : Bool :=
  c == ' ' || c == '\t' || c == '\n' || c == '\x0d' || c == '\x0b' || c == '\x0c'

/-- ASCII lowercase letter. -/
def isLowC (c : Char) : Bool := 97 ≤ c.toNat && c.toNat ≤ 122

/-- ASCII uppercase letter. -/
def isUpC (c : Char) : Bool := 65 ≤ c.toNat && c.toNat ≤ 90

/-- ASCII letter, the class `[a-zA-Z]` of the source's regular expressions. -/
def isAlphaC (c : Char) : Bool := isLowC c || isUpC c

/-- ASCII digit. -/
def isDigC (c : Char) : Bool := 48 ≤ c.toNat && c.toNat ≤ 57

/-- Word character for Python's `\b` word boundaries (`\w` in the ASCII range). -/
def isWordC (c : Char) : Bool := isAlphaC c || isDigC c || c == '_'

/-- Lowercase one character (ASCII). -/
def lowerC (c : Char) : Char :=
  if isUpC c then Char.ofNat (c.toNat + 32) else c

/-- Uppercase one character (ASCII). -/
def upperC (c : Char) : Char :=
  if isLowC c then Char.ofNat (c.toNat - 32) else c

/-- Python `str.lower` (ASCII). -/
def lowerS (s : Str) : Str := s.map lowerC

/-- Python `str.title` (ASCII): a letter after a non-letter is uppercased,
a letter after a letter is lowercased. -/
def titleAux : Bool → Str → Str
  | _, [] => []
  | prevAlpha, c :: cs =>
    (if isAlphaC c then (if prevAlpha then lowerC c else upperC c) else c)
      :: titleAux (isAlphaC c) cs

/-- Python `str.title` (ASCII). -/
def titleS (s : Str) : Str := titleAux false s

/-- Python `str.strip` (ASCII whitespace). -/
def stripS (s : Str) : Str :=
  ((s.dropWhile isWsC).reverse.dropWhile isWsC).reverse

/-- Python's substring test `needle in hay`. -/
def strIn (needle hay : Str) : Bool :=
  hay.tails.any (fun t => needle.isPrefixOf t)

/-- Worker for `splitWs`; `acc` is the current word, reversed. -/
def splitWsAcc (acc : Str) : Str → List Str
  | [] => if acc.isEmpty then [] else [acc.reverse]
  | c :: cs =>
    if isWsC c then
      (if acc.isEmpty then splitWsAcc [] cs else acc.reverse :: splitWsAcc [] cs)
    else splitWsAcc (c :: acc) cs

/-- Python `str.split()` with no separator: split on whitespace runs,
dropping empty fragments. -/
def splitWs (s : Str) : List Str := splitWsAcc [] s

/-- Python `' '.join`. -/
def joinWs : List Str → Str
  | [] => []
  | [w] => w
  | w :: w' :: ws => w ++ ' ' :: joinWs (w' :: ws)

/-- A job posting in the common shape produced by the source adapters
(`job_sources.py`); the dictionaries always carry all seven keys. -/
structure Job where
  id : Str
  title : Str
  company : Str
  location : Str
  url : Str
  source : Str
  description : Str
deriving DecidableEq

/-- The filter dictionary produced by `JobQueryParser.parse_query`.
`none` models a key that is absent from the dictionary (or bound to null). -/
structure FilterSet where
  role : Option Str
  location : Option Str
  language_required : Option (List Str)
  exclude_language : Option (List Str)
  keywords : Option (List Str)
  remote : Option Bool
  salary_min : Option Int
  salary_max : Option Int
deriving DecidableEq

/-- Python truthiness of `filters.get(k)` for a string-valued key. -/
def truthyS : Option Str → Bool
  | none => false
  | some s => !s.isEmpty

/-- Python truthiness of `filters.get(k)` for a list-valued key. -/
def truthyL : Option (List Str) → Bool
  | none => false
  | some l => !l.isEmpty

/-- Python truthiness of `filters.get(k)` for a boolean-valued key. -/
def truthyB : Option Bool → Bool
  | none => false
  | some b => b

/-- Python truthiness of `filters.get(k)` for a numeric key. -/
def truthyI : Option Int → Bool
  | none => false
  | some n => n != 0

/-- The seven exclusion trigger phrases built in `JobFilter._matches_filters`
for one (already lowercased) language name. -/
def excludePatterns (langLower : Str) : List Str :=
  [ langLower ++ " required".toList
  , langLower ++ " proficiency".toList
  , "fluent in ".toList ++ langLower
  , "speak ".toList ++ langLower
  , "native ".toList ++ langLower
  , langLower ++ " speaker".toList
  , langLower ++ " language".toList ]

/-- `JobFilter._matches_filters` from `src/job_filter.py`: the sequence of
guarded early-return checks, rendered as a conjunction (each guard tests the
Python truthiness of the corresponding filter value). -/
def matches_filters (job : Job) (filters : FilterSet) : Bool :=
  (if truthyS filters.role then
    (splitWs (lowerS (filters.role.getD []))).any (fun keyword =>
      strIn keyword (lowerS job.title) || strIn keyword (lowerS job.description))
   else true)
  &&
  (if truthyS filters.location then
    strIn (lowerS (filters.location.getD [])) (lowerS job.location)
   else true)
  &&
  (if truthyL filters.exclude_language then
    (filters.exclude_language.getD []).all (fun lang =>
      !(excludePatterns (lowerS lang)).any (fun pat =>
        strIn pat (lowerS job.description) || strIn pat (lowerS job.title)))
   else true)
  &&
  (if truthyL filters.language_required then
    (filters.language_required.getD []).all (fun lang =>
      strIn (lowerS lang) (lowerS job.description))
   else true)
  &&
  (if truthyL filters.keywords then
    (filters.keywords.getD []).all (fun keyword =>
      strIn (lowerS keyword) (lowerS job.description)
        || strIn (lowerS keyword) (lowerS job.title))
   else true)
  &&
  (if truthyB filters.remote then
    (["remote".toList, "work from home".toList, "wfh".toList, "distributed".toList]).any
      (fun keyword => strIn keyword (lowerS job.location) || strIn keyword (lowerS job.description))
   else true)

/-- `JobFilter.filter_jobs`. -/
def filter_jobs (jobs : List Job) (filters : FilterSet) : List Job :=
  jobs.filter (fun job => matches_filters job filters)

/-- Characters kept by `re.sub(r'[^a-z0-9\s]', '', text)` in
`JobFilter._normalize_text` (the text is already lowercased). -/
def keepC (c : Char) : Bool := isLowC c || isDigC c || isWsC c

/-- `JobFilter._normalize_text`: lowercase, drop characters outside
`[a-z0-9\s]`, collapse whitespace runs to single spaces, trim. -/
def normalize_text (text : Str) : Str :=
  joinWs (splitWs ((lowerS text).filter keepC))

/-- The deduplication key of `JobFilter.deduplicate_jobs`. -/
def dedupKey (job : Job) : Str × Str :=
  (normalize_text job.title, normalize_text job.company)

/-- The loop of `JobFilter.deduplicate_jobs` with its `seen` set of keys. -/
def dedupAux (seen : List (Str × Str)) : List Job → List Job
  | [] => []
  | job :: rest =>
    let key := dedupKey job
    if key ∈ seen then dedupAux seen rest
    else job :: dedupAux (key :: seen) rest

/-- `JobFilter.deduplicate_jobs` from `src/job_filter.py`. -/
def deduplicate_jobs (jobs : List Job) : List Job := dedupAux [] jobs

/-! ### The local heuristic fallback of `JobQueryParser.parse_query`

The fallback uses five regular expressions on the lowercased query.  Each is
modelled by a deterministic matcher (for these patterns, greedy/lazy
backtracking has a unique outcome, because the character classes of adjacent
pieces are disjoint), together with a left-to-right non-overlapping scan.  -/

/-- The keyword alternation `(?:required|needed|necessary)` of the first
pattern, tried in order; no alternative is a prefix of another, so the
result is the unique alternative the text starts with. -/
def tryKw (s : Str) : Option Str :=
  if (['r','e','q','u','i','r','e','d'] : Str).isPrefixOf s then
    some ['r','e','q','u','i','r','e','d']
  else if (['n','e','e','d','e','d'] : Str).isPrefixOf s then
    some ['n','e','e','d','e','d']
  else if (['n','e','c','e','s','s','a','r','y'] : Str).isPrefixOf s then
    some ['n','e','c','e','s','s','a','r','y']
  else none

/-- Matching `no\s+([a-zA-Z]+)\s+(?:required|needed|necessary)` at the head of
the string: literal `no`, a maximal non-empty whitespace run, a maximal
non-empty letter run (the capture), a maximal non-empty whitespace run, then
one of the three keywords.  Returns the capture and the rest of the string
after the match. -/
def matchR1 : Str → Option (Str × Str)
  | 'n' :: 'o' :: r0 =>
    let w1 := r0.takeWhile isWsC
    let r1 := r0.dropWhile isWsC
    let g := r1.takeWhile isAlphaC
    let r2 := r1.dropWhile isAlphaC
    let w2 := r2.takeWhile isWsC
    let r3 := r2.dropWhile isWsC
    if w1.isEmpty || g.isEmpty || w2.isEmpty then none
    else
      match tryKw r3 with
      | some kw => some (g, r3.drop kw.length)
      | none => none
  | _ => none

/-- Shared tail of `no\s+([a-zA-Z]+)\b` and `without\s+([a-zA-Z]+)\b`:
a non-empty whitespace run, a maximal non-empty letter run, then a word
boundary (end of string, or a non-word character). -/
def matchWordTail (r0 : Str) : Option (Str × Str) :=
  let w1 := r0.takeWhile isWsC
  let r1 := r0.dropWhile isWsC
  let g := r1.takeWhile isAlphaC
  let r2 := r1.dropWhile isAlphaC
  if w1.isEmpty || g.isEmpty then none
  else
    match r2 with
    | [] => some (g, ([] : Str))
    | d :: ds => if isWordC d then none else some (g, d :: ds)

/-- Matching `no\s+([a-zA-Z]+)\b` at the head of the string. -/
def matchR2 : Str → Option (Str × Str)
  | 'n' :: 'o' :: r0 => matchWordTail r0
  | _ => none

/-- Matching `without\s+([a-zA-Z]+)\b` at the head of the string. -/
def matchR3 : Str → Option (Str × Str)
  | 'w' :: 'i' :: 't' :: 'h' :: 'o' :: 'u' :: 't' :: r0 => matchWordTail r0
  | _ => none

/-- Left-to-right non-overlapping scan (`re.finditer`): try the matcher at
every position, and after a match continue right after its end.  The first
argument counts positions still to be skipped because they belong to the
previous match. -/
def scanMatches (m : Str → Option (Str × Str)) : Nat → Str → List Str
  | _, [] => []
  | skip + 1, _ :: cs => scanMatches m skip cs
  | 0, c :: cs =>
    match m (c :: cs) with
    | some (g, rest) => g :: scanMatches m (cs.length - rest.length) cs
    | none => scanMatches m 0 cs

/-- Left-to-right non-overlapping substitution by the empty string
(`re.sub(pat, '', s)` / `str.replace(old, '')`): the matcher returns the rest
of the string after a match at the head. -/
def subMatches (m : Str → Option Str) : Nat → Str → Str
  | _, [] => []
  | skip + 1, _ :: cs => subMatches m skip cs
  | 0, c :: cs =>
    match m (c :: cs) with
    | some rest => subMatches m (cs.length - rest.length) cs
    | none => c :: subMatches m 0 cs

/-- Matching `no\s+[a-zA-Z]+` at the head of the string (no capture needed);
returns the rest after the match. -/
def matchNoWord : Str → Option Str
  | 'n' :: 'o' :: r0 =>
    let w1 := r0.takeWhile isWsC
    let r1 := r0.dropWhile isWsC
    let g := r1.takeWhile isAlphaC
    if w1.isEmpty || g.isEmpty then none
    else some (r1.dropWhile isAlphaC)
  | _ => none

/-- `re.sub(r'no\s+[a-zA-Z]+', '', s)`. -/
def subNoWord (s : Str) : Str := subMatches matchNoWord 0 s

/-- Python `str.replace(old, '')` (with a non-empty `old`): leftmost
non-overlapping literal occurrences are removed. -/
def matchLit (old : Str) (s : Str) : Option Str :=
  if old.isPrefixOf s && !old.isEmpty then some (s.drop old.length) else none

/-- Python `str.replace(old, '')`. -/
def removeAll (old : Str) (s : Str) : Str := subMatches (matchLit old) 0 s

/-- Whether a word boundary `\b` holds between the previous character and a
word character. -/
def bOkPrev : Option Char → Bool
  | none => true
  | some p => !isWordC p

/-- Whether a word boundary `\b` holds after a word character, looking at what
follows. -/
def bOkNext : Str → Bool
  | [] => true
  | d :: _ => !isWordC d

/-- Worker for `re.sub(r'\bremote\b', '', s)`: tracks the previous character
of the original string for the leading word boundary. -/
def subRemoteAux (prev : Option Char) : Nat → Str → Str
  | _, [] => []
  | skip + 1, c :: cs => subRemoteAux (some c) skip cs
  | 0, c :: cs =>
    if bOkPrev prev && (['r','e','m','o','t','e'] : Str).isPrefixOf (c :: cs)
        && bOkNext ((c :: cs).drop 6) then
      subRemoteAux (some c) 5 cs
    else c :: subRemoteAux (some c) 0 cs

/-- `re.sub(r'\bremote\b', '', s)`. -/
def subRemote (s : Str) : Str := subRemoteAux none 0 s

/-- The character class `[a-zA-Z\-\s]` of the location pattern. -/
def locClass (c : Char) : Bool := isAlphaC c || c == '-' || isWsC c

/-- End-of-group search for `\bin\s+([a-zA-Z\-\s]+?)(?:,|$)`: starting right
after the single mandatory whitespace character (position 1 of the text after
`in`), find the least position `t ≥ 2` at which the lazy group can stop: a
comma, the end of the string, or — because `$` also matches before a final
newline — a final `'\n'`.  The scan may only cross characters of the class. -/
def locEnd (j : Nat) : Str → Option Nat
  | [] => if 2 ≤ j then some j else none
  | c :: cs =>
    if 2 ≤ j && (c == ',' || (c == '\n' && cs.isEmpty)) then some j
    else if locClass c then locEnd (j + 1) cs
    else none

/-- Matching `in\s+([a-zA-Z\-\s]+?)(?:,|$)` at the head (the leading `\b` is
checked by the caller): the whitespace run is maximal subject to leaving at
least one character for the group, which takes the rest up to the stop
position. -/
def matchLocAt : Str → Option Str
  | 'i' :: 'n' :: rest =>
    match rest with
    | [] => none
    | w :: r1 =>
      if isWsC w then
        match locEnd 1 r1 with
        | some t =>
          let mmax := ((w :: r1).takeWhile isWsC).length
          let m := min mmax (t - 1)
          some (((w :: r1).drop m).take (t - m))
        | none => none
      else none
  | _ => none

/-- `re.search(r'\bin\s+([a-zA-Z\-\s]+?)(?:,|$)', ql)`: leftmost match;
returns the match start and the captured group. -/
def searchLoc (prev : Option Char) (pos : Nat) : Str → Option (Nat × Str)
  | [] => none
  | c :: cs =>
    match (if bOkPrev prev then matchLocAt (c :: cs) else none) with
    | some g => some (pos, g)
    | none => searchLoc (some c) (pos + 1) cs

/-! ### `local_parse` itself, section by section. -/

/-- First loop of `local_parse`: every capture of the first pattern is
title-cased and appended unconditionally. -/
def exLoop1 (ql : Str) : List Str := (scanMatches matchR1 0 ql).map titleS

/-- Second loop: captures of `no\s+([a-zA-Z]+)\b`, appended if not already
present and not equal to the (lowercase) strings `no`/`not` — the comparison
in the source is against the title-cased capture, so the second test never
fires, but it is kept faithfully. -/
def exLoop2 (ql : Str) (acc : List Str) : List Str :=
  (scanMatches matchR2 0 ql).foldl (fun acc g =>
    let lang := titleS g
    if !acc.contains lang && !(lang == (['n','o'] : Str)) && !(lang == (['n','o','t'] : Str))
    then acc ++ [lang] else acc) acc

/-- Third loop: captures of `without\s+([a-zA-Z]+)\b`, appended if not already
present. -/
def exLoop3 (ql : Str) (acc : List Str) : List Str :=
  (scanMatches matchR3 0 ql).foldl (fun acc g =>
    let lang := titleS g
    if !acc.contains lang then acc ++ [lang] else acc) acc

/-- The `exclude_langs` list built by `local_parse`. -/
def excludeLangs (ql : Str) : List Str := exLoop3 ql (exLoop2 ql (exLoop1 ql))

/-- The location capture processing of `local_parse`: strip, remove the
standalone word `remote`, strip again; empty means no location. -/
def locationField (ql : Str) : Option Str :=
  match searchLoc none 0 ql with
  | some (_, g) =>
    let l0 := stripS g
    let l1 := stripS (subRemote l0)
    if l1.isEmpty then none else some (titleS l1)
  | none => none

/-- The role candidate: the text before the location match (or before the
first comma if no location matched), stripped. -/
def roleCandidate (ql : Str) : Str :=
  match searchLoc none 0 ql with
  | some (s, _) => stripS (ql.take s)
  | none => stripS (ql.takeWhile (fun c => c != ','))

/-- The role string after removing `no <word>` fragments and the substrings
`with` and `but`, then stripping. -/
def roleString (ql : Str) : Str :=
  stripS (removeAll (['b','u','t'] : Str)
    (removeAll (['w','i','t','h'] : Str) (subNoWord (roleCandidate ql))))

/-- The `role` entry of `local_parse`. -/
def roleField (ql : Str) : Option Str :=
  let rp := roleString ql
  if rp.isEmpty then none else some (titleS rp)

/-- The fixed keyword vocabulary of `local_parse`. -/
def keywordVocab : List Str :=
  ["senior".toList, "junior".toList, "manager".toList,
   "specialist".toList, "engineer".toList, "nurse".toList]

/-- The `keywords` list of `local_parse`: vocabulary words present in the
query and not contained in the (lowercased) derived role. -/
def keywordsList (ql : Str) : List Str :=
  keywordVocab.foldl (fun acc kw =>
    if strIn kw ql &&
        (match roleField ql with
         | none => true
         | some r => !strIn kw (lowerS r)) then
      acc ++ [titleS kw]
    else acc) []

/-- The `remote` entry of `local_parse`. -/
def remoteField (ql : Str) : Option Bool :=
  if strIn "remote".toList ql || strIn "work from home".toList ql
      || strIn "wfh".toList ql then some true
  else none

/-- The local heuristic fallback `local_parse` of `JobQueryParser.parse_query`
in `src/openai_parser.py`. -/
def local_parse (q : Str) : FilterSet :=
  let ql := lowerS q
  { role := roleField ql
  , location := locationField ql
  , language_required := none
  , exclude_language :=
      if (excludeLangs ql).isEmpty then none else some (excludeLangs ql)
  , keywords :=
      if (keywordsList ql).isEmpty then none else some (keywordsList ql)
  , remote := remoteField ql
  , salary_min := none
  , salary_max := none }

/-- The merge loop of `JobQueryParser.parse_query`: start from the AI result;
every field the heuristic populated is copied in only when the AI value is
absent or Python-falsy. -/
def mergeFilters (ai heuristic : FilterSet) : FilterSet :=
  { role := match heuristic.role with
      | some v => if truthyS ai.role then ai.role else some v
      | none => ai.role
  , location := match heuristic.location with
      | some v => if truthyS ai.location then ai.location else some v
      | none => ai.location
  , language_required := match heuristic.language_required with
      | some v => if truthyL ai.language_required then ai.language_required else some v
      | none => ai.language_required
  , exclude_language := match heuristic.exclude_language with
      | some v => if truthyL ai.exclude_language then ai.exclude_language else some v
      | none => ai.exclude_language
  , keywords := match heuristic.keywords with
      | some v => if truthyL ai.keywords then ai.keywords else some v
      | none => ai.keywords
  , remote := match heuristic.remote with
      | some v => if truthyB ai.remote then ai.remote else some v
      | none => ai.remote
  , salary_min := match heuristic.salary_min with
      | some v => if truthyI ai.salary_min then ai.salary_min else some v
      | none => ai.salary_min
  , salary_max := match heuristic.salary_max with
      | some v => if truthyI ai.salary_max then ai.salary_max else some v
      | none => ai.salary_max }

/-- `JobQueryParser.parse_query`, with the AI extractor's outcome abstracted
as an optional FilterSet (`none`: no client, call failure, or unparsable
response). -/
def parse_query (ai : Option FilterSet) (query : Str) : FilterSet :=
  match ai with
  | none => local_parse query
  | some a => mergeFilters a (local_parse query)

/-! ### Source adapters and the aggregator (`src/job_sources.py`)

Each adapter walks a fixed list of board identifiers; per identifier the
HTTP interaction either succeeds with a JSON listing or fails (non-200
status or an exception, both of which make the identifier contribute
nothing).  That per-identifier outcome is abstracted as an
`Option (List _)` in a fetch environment.  -/

/-- One item of a Greenhouse board response, with the fields the adapter
reads; `id` is the string rendering of the item's id as interpolated by the
f-string. -/
structure GhJob where
  id : Str
  title : Str
  locationName : Str
  absolute_url : Str
  content : Str
deriving DecidableEq

/-- One item of a Lever board response. -/
structure LvJob where
  id : Str
  text : Str
  catLocation : Str
  hostedUrl : Str
  description : Str
deriving DecidableEq

/-- One item of a Workable board response. -/
structure WkJob where
  shortcode : Str
  title : Str
  city : Str
  country : Str
  url : Str
  description : Str
deriving DecidableEq

/-- Per-run outcomes of all board fetches: `none` models a non-200 status or
an exception for that identifier. -/
structure FetchEnv where
  greenhouse : Str → Option (List GhJob)
  lever : Str → Option (List LvJob)
  workable : Str → Option (List WkJob)

/-- The fixed Greenhouse board identifiers. -/
def greenhouse_companies : List Str :=
  ["airbnb".toList, "doordash".toList, "gitlab".toList,
   "grammarly".toList, "robinhood".toList]

/-- The fixed Lever board identifiers. -/
def lever_companies : List Str :=
  ["netflix".toList, "spotify".toList, "lyft".toList,
   "databricks".toList, "stripe".toList]

/-- The fixed Workable board identifiers. -/
def workable_companies : List Str :=
  ["signifyd".toList, "omnipresent".toList, "ometria".toList]

/-- The posting dictionary built by `GreenhouseSource.search_jobs` for one
response item. -/
def mkGhJob (company : Str) (j : GhJob) : Job :=
  { id := "gh_".toList ++ company ++ '_' :: j.id
  , title := j.title
  , company := titleS company
  , location := j.locationName
  , url := j.absolute_url
  , source := "Greenhouse".toList
  , description := j.content }

/-- The posting dictionary built by `LeverSource.search_jobs`. -/
def mkLvJob (company : Str) (j : LvJob) : Job :=
  { id := "lever_".toList ++ company ++ '_' :: j.id
  , title := j.text
  , company := titleS company
  , location := j.catLocation
  , url := j.hostedUrl
  , source := "Lever".toList
  , description := j.description }

/-- The posting dictionary built by `WorkableSource.search_jobs`, including
the `city, country` location assembly (the country is appended only when
truthy). -/
def mkWkJob (company : Str) (j : WkJob) : Job :=
  { id := "workable_".toList ++ company ++ '_' :: j.shortcode
  , title := j.title
  , company := titleS company
  , location := j.city ++ (if !j.country.isEmpty then ", ".toList ++ j.country else [])
  , url := j.url
  , source := "Workable".toList
  , description := j.description }

/-- `GreenhouseSource.search_jobs`: the per-company loop accumulating into
`jobs`, skipping failed identifiers. -/
def greenhouseSearch (env : FetchEnv) : List Job :=
  greenhouse_companies.foldl (fun jobs company =>
    match env.greenhouse company with
    | some items => jobs ++ items.map (mkGhJob company)
    | none => jobs) []

/-- `LeverSource.search_jobs`. -/
def leverSearch (env : FetchEnv) : List Job :=
  lever_companies.foldl (fun jobs company =>
    match env.lever company with
    | some items => jobs ++ items.map (mkLvJob company)
    | none => jobs) []

/-- `WorkableSource.search_jobs`. -/
def workableSearch (env : FetchEnv) : List Job :=
  workable_companies.foldl (fun jobs company =>
    match env.workable company with
    | some items => jobs ++ items.map (mkWkJob company)
    | none => jobs) []

/-- `JobAggregator.search_all_sources`: each adapter invocation either
returns a posting list or raises (modelled as `Except`); a raising adapter
is caught and skipped. -/
def search_all_sources (results : List (Except Str (List Job))) : List Job :=
  results.foldl (fun all_jobs r =>
    match r with
    | .ok jobs => all_jobs ++ jobs
    | .error _ => all_jobs) []

/-- The raw concatenated aggregator output of a run in which no adapter-level
exception occurs (the three base adapters themselves catch all per-identifier
errors, so this is the normal run). -/
def aggregatorRaw (env : FetchEnv) : List Job :=
  search_all_sources
    [Except.ok (greenhouseSearch env),
     Except.ok (leverSearch env),
     Except.ok (workableSearch env)]

/-! ## Theorems -/

/-- Claim C1: the spec's scenario says the posting titled "Registered Nurse"
in Amsterdam whose description reads "English speaking environment. No Dutch
required." matches the filter set with role "nurse" and excluded language
"Dutch".  The code disagrees: the exclusion phrase "dutch required" occurs
inside "no dutch required" as a substring, so `_matches_filters` returns
`False` and the posting is rejected — precisely the kind of posting the
flagship query "no Dutch required" is meant to surface.  This theorem
evaluates the matcher at that failing input. -/
theorem matcher_excludes_no_dutch_required_posting :
    strIn "dutch required".toList
      (lowerS "English speaking environment. No Dutch required.".toList) = true
    ∧ matches_filters
        { id := [], title := "Registered Nurse".toList, company := [],
          location := "Amsterdam, Netherlands".toList, url := [], source := [],
          description := "English speaking environment. No Dutch required.".toList }
        { role := some "nurse".toList, location := none, language_required := none,
          exclude_language := some ["Dutch".toList], keywords := none, remote := none,
          salary_min := none, salary_max := none } = false := by
  decide

/-- Claim C4: on the query "nurse in Utrecht, no Dutch required" the
heuristic extractor produces exactly role "Nurse", location "Utrecht" and
excluded languages ["Dutch"], with every other field absent. -/
theorem local_parse_nurse_utrecht_query :
    local_parse "nurse in Utrecht, no Dutch required".toList =
      { role := some "Nurse".toList
      , location := some "Utrecht".toList
      , language_required := none
      , exclude_language := some ["Dutch".toList]
      , keywords := none
      , remote := none
      , salary_min := none
      , salary_max := none } := by
  decide

/-- Claim C6, counterexample: the claim says the word "withdrawal" in the
role candidate survives intact (as "Withdrawal") because only the standalone
words "with"/"but" are stripped.  In fact `str.replace('with','')` removes
the substring everywhere: for the query "withdrawal specialist in utrecht"
the role candidate is "withdrawal specialist", yet the derived role is
"Drawal Specialist" and contains no "Withdrawal". -/
theorem role_withdrawal_not_intact :
    roleCandidate (lowerS "withdrawal specialist in utrecht".toList)
        = "withdrawal specialist".toList
    ∧ strIn "Withdrawal".toList
        ((local_parse "withdrawal specialist in utrecht".toList).role.getD []) = false := by
  decide

/-- Claim C6, amended: the role derivation removes the substrings "with" and
"but" wherever they occur, inside longer words included; on the query
"withdrawal specialist in utrecht" the derived role is "Drawal Specialist". -/
theorem role_withdrawal_becomes_drawal :
    (local_parse "withdrawal specialist in utrecht".toList).role
      = some "Drawal Specialist".toList := by
  decide

/-- Claim C5, counterexample: the query "no bno neededx required" contains
the substring "no neededx required" — of the form "no X required" with
X = "neededx" a single alphabetic word — yet the excluded-languages list of
the heuristic extractor is ["Bno"] and does not contain "Neededx": the
earlier non-overlapping match "no bno needed" of the scan consumes the "no"
of the occurrence. -/
theorem excluded_language_scan_shadowing :
    strIn "no neededx required".toList (lowerS "no bno neededx required".toList) = true
    ∧ titleS "neededx".toList = "Neededx".toList
    ∧ (local_parse "no bno neededx required".toList).exclude_language
        = some ["Bno".toList]
    ∧ (((local_parse "no bno neededx required".toList).exclude_language.getD
          []).contains "Neededx".toList) = false := by
  decide

/-- Claim C3, counterexample: with arbitrary per-board response data the ids
of the raw aggregator output need not be pairwise distinct — if one
Greenhouse board answers with two items carrying the same item id, both
postings get the same source-prefixed id. -/
theorem aggregator_duplicate_ids_possible :
    (aggregatorRaw
      { greenhouse := fun c =>
          if c = "airbnb".toList then
            some [ { id := "1".toList, title := [], locationName := [],
                     absolute_url := [], content := [] }
                 , { id := "1".toList, title := [], locationName := [],
                     absolute_url := [], content := [] } ]
          else none
      , lever := fun _ => none
      , workable := fun _ => none }).map Job.id
      = ["gh_airbnb_1".toList, "gh_airbnb_1".toList]
    ∧ ¬ ((aggregatorRaw
      { greenhouse := fun c =>
          if c = "airbnb".toList then
            some [ { id := "1".toList, title := [], locationName := [],
                     absolute_url := [], content := [] }
                 , { id := "1".toList, title := [], locationName := [],
                     absolute_url := [], content := [] } ]
          else none
      , lever := fun _ => none
      , workable := fun _ => none }).map Job.id).Nodup := by
  constructor
  · decide
  · decide

/-- Claim C10: the matcher treats a falsy constraint value exactly like an
absent key — for any key held at `False`, the empty string or the empty
sequence, removing the key does not change the decision (the two unread
salary keys never change it at all); in particular `remote = False` never
constrains the result. -/
theorem matcher_falsy_equals_absent (job : Job) (f : FilterSet) :
    (f.role = some [] →
      matches_filters job f = matches_filters job { f with role := none })
    ∧ (f.location = some [] →
      matches_filters job f = matches_filters job { f with location := none })
    ∧ (f.exclude_language = some [] →
      matches_filters job f = matches_filters job { f with exclude_language := none })
    ∧ (f.language_required = some [] →
      matches_filters job f = matches_filters job { f with language_required := none })
    ∧ (f.keywords = some [] →
      matches_filters job f = matches_filters job { f with keywords := none })
    ∧ (f.remote = some false →
      matches_filters job f = matches_filters job { f with remote := none })
    ∧ matches_filters job { f with salary_min := none } = matches_filters job f
    ∧ matches_filters job { f with salary_max := none } = matches_filters job f := by
  refine ⟨fun h => ?_, fun h => ?_, fun h => ?_, fun h => ?_, fun h => ?_, fun h => ?_, ?_, ?_⟩ <;>
    simp_all [matches_filters, truthyS, truthyL, truthyB]

/-- Witness for claim C10 at a concrete posting and a filter set whose six
matcher-read keys all hold falsy values. -/
theorem matcher_falsy_equals_absent_witness :
    (matches_filters
        { id := [], title := "Nurse".toList, company := [], location := "Utrecht".toList,
          url := [], source := [], description := "Healthcare role".toList }
        { role := some [], location := some [], language_required := some [],
          exclude_language := some [], keywords := some [], remote := some false,
          salary_min := some 0, salary_max := none }
      = matches_filters
        { id := [], title := "Nurse".toList, company := [], location := "Utrecht".toList,
          url := [], source := [], description := "Healthcare role".toList }
        { role := none, location := some [], language_required := some [],
          exclude_language := some [], keywords := some [], remote := some false,
          salary_min := some 0, salary_max := none })
    ∧ (matches_filters
        { id := [], title := "Nurse".toList, company := [], location := "Utrecht".toList,
          url := [], source := [], description := "Healthcare role".toList }
        { role := some [], location := some [], language_required := some [],
          exclude_language := some [], keywords := some [], remote := some false,
          salary_min := some 0, salary_max := none }
      = matches_filters
        { id := [], title := "Nurse".toList, company := [], location := "Utrecht".toList,
          url := [], source := [], description := "Healthcare role".toList }
        { role := some [], location := some [], language_required := some [],
          exclude_language := some [], keywords := some [], remote := none,
          salary_min := some 0, salary_max := none }) :=
  ⟨(matcher_falsy_equals_absent _ _).1 rfl,
   (matcher_falsy_equals_absent _ _).2.2.2.2.2.1 rfl⟩

/-- Truthiness of a populated non-empty string field. -/
theorem truthyS_of_ne {v : Str} (hv : v ≠ []) : truthyS (some v) = true := by
  cases v with
  | nil => exact absurd rfl hv
  | cons a t => rfl

/-- Truthiness of a populated non-empty sequence field. -/
theorem truthyL_of_ne {v : List Str} (hv : v ≠ []) : truthyL (some v) = true := by
  cases v with
  | nil => exact absurd rfl hv
  | cons a t => rfl

/-- Claim C2: the filter compiler's merge policy.  When the AI extractor
returns no filter set, the result is the heuristic result verbatim.  When it
returns one, the compiled result keeps every AI field populated with a
non-empty value (conjuncts 2–9; emptiness means empty string, empty
sequence, or false boolean — a number such as 0 is not "empty", and the
heuristic never populates the salary fields, so AI salary values always
survive), and takes the heuristic's value on every field the heuristic
populated whose AI counterpart is absent or empty (conjuncts 10–17). -/
theorem parse_query_merge_policy (q : Str) (ai : FilterSet) :
    (parse_query none q = local_parse q)
    ∧ (∀ v, ai.role = some v → v ≠ [] → (parse_query (some ai) q).role = some v)
    ∧ (∀ v, ai.location = some v → v ≠ [] → (parse_query (some ai) q).location = some v)
    ∧ (∀ v, ai.language_required = some v → v ≠ [] →
        (parse_query (some ai) q).language_required = some v)
    ∧ (∀ v, ai.exclude_language = some v → v ≠ [] →
        (parse_query (some ai) q).exclude_language = some v)
    ∧ (∀ v, ai.keywords = some v → v ≠ [] → (parse_query (some ai) q).keywords = some v)
    ∧ (ai.remote = some true → (parse_query (some ai) q).remote = some true)
    ∧ (∀ n, ai.salary_min = some n → (parse_query (some ai) q).salary_min = some n)
    ∧ (∀ n, ai.salary_max = some n → (parse_query (some ai) q).salary_max = some n)
    ∧ (∀ v, (local_parse q).role = some v → (ai.role = none ∨ ai.role = some []) →
        (parse_query (some ai) q).role = some v)
    ∧ (∀ v, (local_parse q).location = some v → (ai.location = none ∨ ai.location = some []) →
        (parse_query (some ai) q).location = some v)
    ∧ (∀ v, (local_parse q).language_required = some v →
        (ai.language_required = none ∨ ai.language_required = some []) →
        (parse_query (some ai) q).language_required = some v)
    ∧ (∀ v, (local_parse q).exclude_language = some v →
        (ai.exclude_language = none ∨ ai.exclude_language = some []) →
        (parse_query (some ai) q).exclude_language = some v)
    ∧ (∀ v, (local_parse q).keywords = some v → (ai.keywords = none ∨ ai.keywords = some []) →
        (parse_query (some ai) q).keywords = some v)
    ∧ (∀ b, (local_parse q).remote = some b → (ai.remote = none ∨ ai.remote = some false) →
        (parse_query (some ai) q).remote = some b)
    ∧ (∀ n, (local_parse q).salary_min = some n → ai.salary_min = none →
        (parse_query (some ai) q).salary_min = some n)
    ∧ (∀ n, (local_parse q).salary_max = some n → ai.salary_max = none →
        (parse_query (some ai) q).salary_max = some n) := by
  refine ⟨rfl, ?_, ?_, ?_, ?_, ?_, ?_, ?_, ?_, ?_, ?_, ?_, ?_, ?_, ?_, ?_, ?_⟩
  · intro v h hv
    cases hH : (local_parse q).role <;>
      simp [parse_query, mergeFilters, h, hH, truthyS_of_ne hv]
  · intro v h hv
    cases hH : (local_parse q).location <;>
      simp [parse_query, mergeFilters, h, hH, truthyS_of_ne hv]
  · intro v h hv
    cases hH : (local_parse q).language_required <;>
      simp [parse_query, mergeFilters, h, hH, truthyL_of_ne hv]
  · intro v h hv
    cases hH : (local_parse q).exclude_language <;>
      simp [parse_query, mergeFilters, h, hH, truthyL_of_ne hv]
  · intro v h hv
    cases hH : (local_parse q).keywords <;>
      simp [parse_query, mergeFilters, h, hH, truthyL_of_ne hv]
  · intro h
    cases hH : (local_parse q).remote <;>
      simp [parse_query, mergeFilters, h, hH, truthyB]
  · intro n h
    simp [parse_query, mergeFilters, h,
      show (local_parse q).salary_min = none from rfl]
  · intro n h
    simp [parse_query, mergeFilters, h,
      show (local_parse q).salary_max = none from rfl]
  · intro v hH hA
    rcases hA with hA | hA <;> simp [parse_query, mergeFilters, hH, hA, truthyS]
  · intro v hH hA
    rcases hA with hA | hA <;> simp [parse_query, mergeFilters, hH, hA, truthyS]
  · intro v hH hA
    rcases hA with hA | hA <;> simp [parse_query, mergeFilters, hH, hA, truthyL]
  · intro v hH hA
    rcases hA with hA | hA <;> simp [parse_query, mergeFilters, hH, hA, truthyL]
  · intro v hH hA
    rcases hA with hA | hA <;> simp [parse_query, mergeFilters, hH, hA, truthyL]
  · intro b hH hA
    rcases hA with hA | hA <;> simp [parse_query, mergeFilters, hH, hA, truthyB]
  · intro n hH hA
    simp [show (local_parse q).salary_min = none from rfl] at hH
  · intro n hH hA
    simp [show (local_parse q).salary_max = none from rfl] at hH

/-- Witness for claim C2 at the spec's own merge example: AI result has only
location "Utrecht", the heuristic on "nurse in amsterdam" yields role "Nurse"
and location "Amsterdam"; the compiled result keeps the AI location and takes
the heuristic role. -/
theorem parse_query_merge_policy_witness :
    (parse_query
        (some { role := none, location := some "Utrecht".toList,
                language_required := none, exclude_language := none, keywords := none,
                remote := none, salary_min := none, salary_max := none })
        "nurse in amsterdam".toList).location = some "Utrecht".toList
    ∧ (parse_query
        (some { role := none, location := some "Utrecht".toList,
                language_required := none, exclude_language := none, keywords := none,
                remote := none, salary_min := none, salary_max := none })
        "nurse in amsterdam".toList).role = some "Nurse".toList :=
  ⟨(parse_query_merge_policy "nurse in amsterdam".toList
      { role := none, location := some "Utrecht".toList,
        language_required := none, exclude_language := none, keywords := none,
        remote := none, salary_min := none, salary_max := none }).2.2.1
      "Utrecht".toList rfl (by decide),
   (parse_query_merge_policy "nurse in amsterdam".toList
      { role := none, location := some "Utrecht".toList,
        language_required := none, exclude_language := none, keywords := none,
        remote := none, salary_min := none, salary_max := none }).2.2.2.2.2.2.2.2.2.1
      "Nurse".toList (by decide) (Or.inl rfl)⟩

/-- Specification-shaped deduplication: keep the head, drop every later
posting with the same key, recurse. -/
def specDedupe : List Job → List Job
  | [] => []
  | j :: rest =>
    j :: specDedupe (rest.filter (fun j2 => !(dedupKey j2 == dedupKey j)))
termination_by l => l.length
decreasing_by
  simp only [List.length_cons]
  exact Nat.lt_succ_of_le (List.length_filter_le _ _)

/-- Unfolding equation for `specDedupe` on a cons cell. -/
theorem specDedupe_cons (j : Job) (rest : List Job) :
    specDedupe (j :: rest)
      = j :: specDedupe (rest.filter (fun j2 => !(dedupKey j2 == dedupKey j))) := by
  rw [specDedupe]

/-- Membership in a cons cell of seen keys, written on the Bool side. -/
theorem not_mem_cons_pred (a b : Str × Str) (seen : List (Str × Str)) :
    (!decide (a ∈ b :: seen)) = (!(a == b) && !decide (a ∈ seen)) := by
  by_cases h1 : a = b <;> by_cases h2 : a ∈ seen <;> simp [h1, h2]

/-- Unfolding equation for `specDedupe` on the empty list. -/
theorem specDedupe_nil : specDedupe [] = [] := by
  rw [specDedupe]

/-- The deduplication loop with an arbitrary seen set equals the
specification-shaped version run on the postings whose key is unseen. -/
theorem dedupAux_spec (jobs : List Job) :
    ∀ seen, dedupAux seen jobs
      = specDedupe (jobs.filter (fun j => !decide (dedupKey j ∈ seen))) := by
  induction jobs with
  | nil => intro seen; simp [dedupAux, specDedupe_nil]
  | cons j rest ih =>
    intro seen
    rw [List.filter_cons]
    by_cases h : dedupKey j ∈ seen
    · have hc : (!decide (dedupKey j ∈ seen)) = false := by simp [h]
      rw [hc, if_neg Bool.false_ne_true]
      simp only [dedupAux]
      rw [if_pos h]
      exact ih seen
    · have hc : (!decide (dedupKey j ∈ seen)) = true := by simp [h]
      rw [hc, if_pos rfl]
      simp only [dedupAux]
      rw [if_neg h, specDedupe_cons, ih (dedupKey j :: seen), List.filter_filter]
      congr 1
      congr 1
      apply List.filter_congr
      intro x _
      rw [not_mem_cons_pred]

/-- Claim C7: the deduplicator keeps exactly the first posting (in input
order) for each distinct key (normalized title, normalized company); in
particular two postings agreeing on normalized title and company collapse to
the first even when id, location or url differ, since the key consults none
of those fields. -/
theorem deduplicate_first_per_key :
    (∀ jobs, deduplicate_jobs jobs = specDedupe jobs)
    ∧ ∀ j1 j2 : Job, dedupKey j1 = dedupKey j2 → deduplicate_jobs [j1, j2] = [j1] := by
  constructor
  · intro jobs
    have h := dedupAux_spec jobs []
    simpa [deduplicate_jobs] using h
  · intro j1 j2 h
    show dedupAux [] [j1, j2] = [j1]
    simp [dedupAux, h]

/-- Witness for claim C7: the spec's scenario — identical title and company,
different location and url — collapses to the first posting. -/
theorem deduplicate_first_per_key_witness :
    deduplicate_jobs
      [ { id := "a".toList, title := "Software Engineer".toList, company := "TechCo".toList,
          location := "Amsterdam".toList, url := "url1".toList, source := [],
          description := [] }
      , { id := "b".toList, title := "Software Engineer".toList, company := "TechCo".toList,
          location := "Rotterdam".toList, url := "url2".toList, source := [],
          description := [] } ]
      = [ { id := "a".toList, title := "Software Engineer".toList, company := "TechCo".toList,
            location := "Amsterdam".toList, url := "url1".toList, source := [],
            description := [] } ] :=
  deduplicate_first_per_key.2 _ _ (by decide)

/-- A character kept by the normalization filter is already lowercase (it is
a lowercase letter, a digit, or whitespace — never an uppercase letter). -/
theorem keepC_lowerC {c : Char} (h : keepC c = true) : lowerC c = c := by
  have hup : isUpC c = false := by
    rw [Bool.eq_false_iff]
    intro hcontra
    simp only [isUpC, Bool.and_eq_true, decide_eq_true_eq] at hcontra
    simp only [keepC, isLowC, isDigC, isWsC, Bool.or_eq_true, Bool.and_eq_true,
      decide_eq_true_eq, beq_iff_eq] at h
    rcases h with (⟨h1, h2⟩ | ⟨h1, h2⟩) | h
    · omega
    · omega
    · have hcase : c = ' ' ∨ c = '\t' ∨ c = '\n' ∨ c = '\x0d' ∨ c = '\x0b' ∨ c = '\x0c' := by
        tauto
      rcases hcase with h' | h' | h' | h' | h' | h' <;> subst h' <;>
        exact absurd hcontra (by decide)
  simp [lowerC, hup]

/-- Mapping a function that fixes every member is the identity. -/
theorem map_id_of {f : Char → Char} :
    ∀ l : Str, (∀ c ∈ l, f c = c) → l.map f = l := by
  intro l
  induction l with
  | nil => intro _; rfl
  | cons c cs ih =>
    intro h
    simp only [List.map_cons]
    rw [h c (by simp), ih (fun x hx => h x (by simp [hx]))]

/-- Filtering by a predicate that holds on every member is the identity. -/
theorem filter_id_of {p : Char → Bool} :
    ∀ l : Str, (∀ c ∈ l, p c = true) → l.filter p = l := by
  intro l
  induction l with
  | nil => intro _; rfl
  | cons c cs ih =>
    intro h
    rw [List.filter_cons, if_pos (h c (by simp)), ih (fun x hx => h x (by simp [hx]))]

/-- Every word produced by the split worker is non-empty and consists of
non-whitespace characters satisfying any property `P` holding on the
non-whitespace input (and accumulator) characters. -/
theorem splitWsAcc_props (P : Char → Prop) :
    ∀ (l acc : Str), (∀ c ∈ acc, P c ∧ isWsC c = false) →
      (∀ c ∈ l, isWsC c = false → P c) →
      ∀ w ∈ splitWsAcc acc l, w ≠ [] ∧ ∀ c ∈ w, P c ∧ isWsC c = false := by
  intro l
  induction l with
  | nil =>
    intro acc hacc _ w hw
    by_cases he : acc.isEmpty
    · simp [splitWsAcc, he] at hw
    · simp only [splitWsAcc, he, if_false, Bool.false_eq_true, List.mem_singleton] at hw
      subst hw
      refine ⟨?_, ?_⟩
      · simp only [ne_eq, List.reverse_eq_nil_iff]
        intro hnil
        rw [hnil] at he
        exact he rfl
      · intro c hc
        exact hacc c (List.mem_reverse.mp hc)
  | cons c cs ih =>
    intro acc hacc hl w hw
    by_cases hws : isWsC c
    · by_cases he : acc.isEmpty
      · simp only [splitWsAcc, hws, if_true, he] at hw
        exact ih [] (by simp) (fun x hx h => hl x (by simp [hx]) h) w hw
      · simp only [splitWsAcc, hws, if_true, he, Bool.false_eq_true, if_false,
          List.mem_cons] at hw
        rcases hw with hw | hw
        · subst hw
          refine ⟨?_, ?_⟩
          · simp only [ne_eq, List.reverse_eq_nil_iff]
            intro hnil
            rw [hnil] at he
            exact he rfl
          · intro x hx
            exact hacc x (List.mem_reverse.mp hx)
        · exact ih [] (by simp) (fun x hx h => hl x (by simp [hx]) h) w hw
    · simp only [splitWsAcc, hws, Bool.false_eq_true, if_false] at hw
      refine ih (c :: acc) ?_ (fun x hx h => hl x (by simp [hx]) h) w hw
      intro x hx
      rcases List.mem_cons.mp hx with hx | hx
      · subst hx
        exact ⟨hl x (by simp) (by simpa using hws), by simpa using hws⟩
      · exact hacc x hx

/-- Every character of a join is the separator or comes from one of the
joined words. -/
theorem mem_joinWs : ∀ (ws : List Str) (c : Char),
    c ∈ joinWs ws → c = ' ' ∨ ∃ w ∈ ws, c ∈ w := by
  intro ws
  induction ws with
  | nil => intro c hc; simp [joinWs] at hc
  | cons w rest ih =>
    intro c hc
    cases rest with
    | nil =>
      right
      exact ⟨w, by simp, by simpa [joinWs] using hc⟩
    | cons w2 rest2 =>
      simp only [joinWs, List.mem_append, List.mem_cons] at hc
      rcases hc with hc | hc | hc
      · exact Or.inr ⟨w, by simp, hc⟩
      · exact Or.inl hc
      · rcases ih c hc with h | ⟨w', hw', hc'⟩
        · exact Or.inl h
        · exact Or.inr ⟨w', by simp [hw'], hc'⟩

/-- Scanning a whitespace-free word extends the current accumulator. -/
theorem splitWsAcc_word_prefix :
    ∀ (w acc s : Str), (∀ c ∈ w, isWsC c = false) →
      splitWsAcc acc (w ++ s) = splitWsAcc (w.reverse ++ acc) s := by
  intro w
  induction w with
  | nil => intro acc s _; simp
  | cons c w' ih =>
    intro acc s h
    have hc : isWsC c = false := h c (by simp)
    simp only [List.cons_append, splitWsAcc, hc, Bool.false_eq_true, if_false]
    show splitWsAcc (c :: acc) (w' ++ s) = splitWsAcc ((c :: w').reverse ++ acc) s
    rw [ih (c :: acc) s (fun x hx => h x (by simp [hx]))]
    congr 1
    simp

/-- Splitting a join of non-empty whitespace-free words returns the words. -/
theorem splitWs_joinWs :
    ∀ ws : List Str, (∀ w ∈ ws, w ≠ [] ∧ ∀ c ∈ w, isWsC c = false) →
      splitWs (joinWs ws) = ws := by
  intro ws
  induction ws with
  | nil => intro _; rfl
  | cons w rest ih =>
    intro h
    obtain ⟨hne, hnws⟩ := h w (by simp)
    have hrev : (w.reverse.isEmpty) = false := by
      cases w with
      | nil => exact absurd rfl hne
      | cons a l => simp
    cases rest with
    | nil =>
      show splitWsAcc [] (joinWs [w]) = [w]
      have : joinWs [w] = w ++ [] := by simp [joinWs]
      rw [this, splitWsAcc_word_prefix w [] [] hnws]
      simp [splitWsAcc, hrev]
    | cons w2 rest2 =>
      show splitWsAcc [] (joinWs (w :: w2 :: rest2)) = w :: w2 :: rest2
      have : joinWs (w :: w2 :: rest2) = w ++ ' ' :: joinWs (w2 :: rest2) := rfl
      rw [this, splitWsAcc_word_prefix w [] (' ' :: joinWs (w2 :: rest2)) hnws]
      simp only [List.append_nil, splitWsAcc, show isWsC ' ' = true from rfl, if_true, hrev,
        Bool.false_eq_true, if_false, List.reverse_reverse]
      show w :: splitWs (joinWs (w2 :: rest2)) = w :: w2 :: rest2
      rw [ih (fun x hx => h x (by simp [hx]))]

/-- Claim C9: the canonicalizer is idempotent — its output consists only of
kept (lowercase/digit) characters and single separating spaces with no
leading or trailing whitespace, so lowering, filtering and re-splitting it
change nothing. -/
theorem normalize_text_idempotent (text : Str) :
    normalize_text (normalize_text text) = normalize_text text := by
  have hlchars : ∀ c ∈ (lowerS text).filter keepC, keepC c = true :=
    fun c hc => (List.mem_filter.mp hc).2
  have hwords : ∀ w ∈ splitWs ((lowerS text).filter keepC),
      w ≠ [] ∧ ∀ c ∈ w, keepC c = true ∧ isWsC c = false :=
    splitWsAcc_props (fun c => keepC c = true) ((lowerS text).filter keepC) []
      (by simp) (fun c hc _ => hlchars c hc)
  have hNchars :
      ∀ c ∈ joinWs (splitWs ((lowerS text).filter keepC)), keepC c = true := by
    intro c hc
    rcases mem_joinWs _ c hc with h' | ⟨w, hw, hcw⟩
    · subst h'; decide
    · exact ((hwords w hw).2 c hcw).1
  have hlower :
      lowerS (joinWs (splitWs ((lowerS text).filter keepC)))
        = joinWs (splitWs ((lowerS text).filter keepC)) :=
    map_id_of _ (fun c hc => keepC_lowerC (hNchars c hc))
  have hfilter :
      (joinWs (splitWs ((lowerS text).filter keepC))).filter keepC
        = joinWs (splitWs ((lowerS text).filter keepC)) :=
    filter_id_of _ hNchars
  show joinWs (splitWs ((lowerS (joinWs (splitWs ((lowerS text).filter keepC)))).filter keepC))
      = joinWs (splitWs ((lowerS text).filter keepC))
  rw [hlower, hfilter,
    splitWs_joinWs _ (fun w hw =>
      ⟨(hwords w hw).1, fun c hc => ((hwords w hw).2 c hc).2⟩)]

/-- What one Greenhouse board identifier contributes: its mapped postings on
success, nothing on failure. -/
def ghContrib (env : FetchEnv) (company : Str) : List Job :=
  match env.greenhouse company with
  | some items => items.map (mkGhJob company)
  | none => []

/-- What one Lever board identifier contributes. -/
def lvContrib (env : FetchEnv) (company : Str) : List Job :=
  match env.lever company with
  | some items => items.map (mkLvJob company)
  | none => []

/-- What one Workable board identifier contributes. -/
def wkContrib (env : FetchEnv) (company : Str) : List Job :=
  match env.workable company with
  | some items => items.map (mkWkJob company)
  | none => []

/-- An append-accumulating fold is the concatenation of the per-element
contributions, in order. -/
theorem foldl_append_eq_flatMap {α β : Type} (f : α → List β) :
    ∀ (l : List α) (init : List β),
      l.foldl (fun acc x => acc ++ f x) init = init ++ l.flatMap f := by
  intro l
  induction l with
  | nil => intro init; simp
  | cons x xs ih => intro init; simp [List.foldl_cons, ih]

/-- The Greenhouse adapter output is the in-order concatenation of the
successful identifiers' contributions. -/
theorem greenhouseSearch_eq (env : FetchEnv) :
    greenhouseSearch env = greenhouse_companies.flatMap (ghContrib env) := by
  unfold greenhouseSearch
  have hfun : (fun (jobs : List Job) (company : Str) =>
      match env.greenhouse company with
      | some items => jobs ++ items.map (mkGhJob company)
      | none => jobs)
      = fun (jobs : List Job) (company : Str) => jobs ++ ghContrib env company := by
    funext jobs company
    cases h : env.greenhouse company <;> simp [ghContrib, h]
  rw [hfun, foldl_append_eq_flatMap]
  simp

/-- The Lever adapter output is the in-order concatenation of the successful
identifiers' contributions. -/
theorem leverSearch_eq (env : FetchEnv) :
    leverSearch env = lever_companies.flatMap (lvContrib env) := by
  unfold leverSearch
  have hfun : (fun (jobs : List Job) (company : Str) =>
      match env.lever company with
      | some items => jobs ++ items.map (mkLvJob company)
      | none => jobs)
      = fun (jobs : List Job) (company : Str) => jobs ++ lvContrib env company := by
    funext jobs company
    cases h : env.lever company <;> simp [lvContrib, h]
  rw [hfun, foldl_append_eq_flatMap]
  simp

/-- The Workable adapter output is the in-order concatenation of the
successful identifiers' contributions. -/
theorem workableSearch_eq (env : FetchEnv) :
    workableSearch env = workable_companies.flatMap (wkContrib env) := by
  unfold workableSearch
  have hfun : (fun (jobs : List Job) (company : Str) =>
      match env.workable company with
      | some items => jobs ++ items.map (mkWkJob company)
      | none => jobs)
      = fun (jobs : List Job) (company : Str) => jobs ++ wkContrib env company := by
    funext jobs company
    cases h : env.workable company <;> simp [wkContrib, h]
  rw [hfun, foldl_append_eq_flatMap]
  simp

/-- Claim C8: with any assignment of per-source and per-identifier outcomes,
the aggregator (a total function — no exception escapes) returns exactly the
concatenation, in adapter order then within-adapter order, of the postings of
the successful parts: a raising adapter contributes nothing (first two
conjuncts), and inside each adapter a failed board identifier contributes
nothing while the successes are concatenated in the fixed identifier order
(last three conjuncts). -/
theorem aggregator_concats_successes (env : FetchEnv)
    (outcomes : List (Except Str (List Job))) (e : Str) (l1 l2 : List Job) :
    (search_all_sources outcomes
      = outcomes.flatMap (fun r => match r with | .ok jobs => jobs | .error _ => []))
    ∧ search_all_sources [Except.ok l1, Except.error e, Except.ok l2] = l1 ++ l2
    ∧ greenhouseSearch env = greenhouse_companies.flatMap (ghContrib env)
    ∧ leverSearch env = lever_companies.flatMap (lvContrib env)
    ∧ workableSearch env = workable_companies.flatMap (wkContrib env) := by
  refine ⟨?_, ?_, greenhouseSearch_eq env, leverSearch_eq env, workableSearch_eq env⟩
  · unfold search_all_sources
    have hfun : (fun (all_jobs : List Job) (r : Except Str (List Job)) =>
        match r with
        | .ok jobs => all_jobs ++ jobs
        | .error _ => all_jobs)
        = fun (all_jobs : List Job) (r : Except Str (List Job)) =>
            all_jobs ++ (match r with | .ok jobs => jobs | .error _ => []) := by
      funext all_jobs r
      cases r <;> simp
    rw [hfun, foldl_append_eq_flatMap]
    simp
  · simp [search_all_sources]

/-- Splitting an underscore-delimited id: when the two company prefixes are
underscore-free, equal ids force equal companies and equal item parts. -/
theorem usfree_append_inj :
    ∀ (c1 c2 x y : Str), '_' ∉ c1 → '_' ∉ c2 →
      c1 ++ '_' :: x = c2 ++ '_' :: y → c1 = c2 ∧ x = y := by
  intro c1
  induction c1 with
  | nil =>
    intro c2 x y _ h2 h
    cases c2 with
    | nil =>
      simp only [List.nil_append] at h
      exact ⟨rfl, (List.cons.inj h).2⟩
    | cons d c2' =>
      simp only [List.nil_append, List.cons_append] at h
      obtain ⟨hd, _⟩ := List.cons.inj h
      exact absurd (hd ▸ List.mem_cons_self d c2') h2
  | cons a c1' ih =>
    intro c2 x y h1 h2 h
    cases c2 with
    | nil =>
      simp only [List.cons_append, List.nil_append] at h
      obtain ⟨hd, _⟩ := List.cons.inj h
      exact absurd (hd ▸ List.mem_cons_self a c1') h1
    | cons d c2' =>
      simp only [List.cons_append] at h
      obtain ⟨hd, htl⟩ := List.cons.inj h
      obtain ⟨hc, hxy⟩ := ih c2' x y
        (fun hm => h1 (List.mem_cons_of_mem a hm))
        (fun hm => h2 (List.mem_cons_of_mem d hm)) htl
      exact ⟨by rw [hd, hc], hxy⟩

/-- Tagged per-board ids are pairwise distinct when the board identifiers are
distinct and underscore-free and each board's raw ids are distinct. -/
theorem tagged_flatMap_nodup (t : Str) :
    ∀ companies : List Str, companies.Pairwise (· ≠ ·) →
      (∀ c ∈ companies, '_' ∉ c) →
      ∀ raw : Str → List Str, (∀ c ∈ companies, (raw c).Nodup) →
      (companies.flatMap (fun c => (raw c).map (fun s => t ++ c ++ '_' :: s))).Nodup := by
  intro companies
  induction companies with
  | nil => intro _ _ raw _; simp
  | cons c cs ih =>
    intro hpair hus raw hraw
    rw [List.flatMap_cons, List.nodup_append]
    refine ⟨?_, ?_, ?_⟩
    · refine List.Nodup.map ?_ (hraw c (by simp))
      intro a b hab
      exact (List.cons.inj (List.append_cancel_left hab)).2
    · exact ih (List.Pairwise.sublist (List.sublist_cons_self c cs) hpair)
        (fun x hx => hus x (by simp [hx])) raw
        (fun x hx => hraw x (by simp [hx]))
    · intro x hx hy
      simp only [List.mem_map] at hx
      obtain ⟨s1, _, rfl⟩ := hx
      simp only [List.mem_flatMap, List.mem_map] at hy
      obtain ⟨c2, hc2, s2, _, heq⟩ := hy
      rw [List.append_assoc, List.append_assoc] at heq
      have h1 := List.append_cancel_left heq
      obtain ⟨hcc, _⟩ := usfree_append_inj c2 c s2 s1
        (hus c2 (by simp [hc2])) (hus c (by simp)) h1
      have : c ≠ c2 := (List.pairwise_cons.mp hpair).1 c2 hc2
      exact this hcc.symm

/-- Membership in a tagged flatMap exposes the id shape. -/
theorem tagged_mem_shape {t : Str} {companies : List Str} {raw : Str → List Str} {x : Str}
    (hx : x ∈ companies.flatMap (fun c => (raw c).map (fun s => t ++ c ++ '_' :: s))) :
    ∃ c s, x = t ++ c ++ '_' :: s := by
  simp only [List.mem_flatMap, List.mem_map] at hx
  obtain ⟨c, _, s, _, rfl⟩ := hx
  exact ⟨c, s, rfl⟩

/-- The raw ids one Greenhouse board response carries. -/
def rawGhIds (env : FetchEnv) (c : Str) : List Str :=
  match env.greenhouse c with
  | some items => items.map GhJob.id
  | none => []

/-- The raw ids one Lever board response carries. -/
def rawLvIds (env : FetchEnv) (c : Str) : List Str :=
  match env.lever c with
  | some items => items.map LvJob.id
  | none => []

/-- The raw shortcodes one Workable board response carries. -/
def rawWkIds (env : FetchEnv) (c : Str) : List Str :=
  match env.workable c with
  | some items => items.map WkJob.shortcode
  | none => []

/-- Ids of the Greenhouse adapter output, in tagged shape. -/
theorem ghIds_eq (env : FetchEnv) :
    (greenhouseSearch env).map Job.id
      = greenhouse_companies.flatMap
          (fun c => (rawGhIds env c).map (fun s => "gh_".toList ++ c ++ '_' :: s)) := by
  rw [greenhouseSearch_eq, List.map_flatMap]
  congr 1
  funext c
  cases h : env.greenhouse c <;>
    simp [ghContrib, rawGhIds, h, mkGhJob, List.map_map, Function.comp_def]

/-- Ids of the Lever adapter output, in tagged shape. -/
theorem lvIds_eq (env : FetchEnv) :
    (leverSearch env).map Job.id
      = lever_companies.flatMap
          (fun c => (rawLvIds env c).map (fun s => "lever_".toList ++ c ++ '_' :: s)) := by
  rw [leverSearch_eq, List.map_flatMap]
  congr 1
  funext c
  cases h : env.lever c <;>
    simp [lvContrib, rawLvIds, h, mkLvJob, List.map_map, Function.comp_def]

/-- Ids of the Workable adapter output, in tagged shape. -/
theorem wkIds_eq (env : FetchEnv) :
    (workableSearch env).map Job.id
      = workable_companies.flatMap
          (fun c => (rawWkIds env c).map (fun s => "workable_".toList ++ c ++ '_' :: s)) := by
  rw [workableSearch_eq, List.map_flatMap]
  congr 1
  funext c
  cases h : env.workable c <;>
    simp [wkContrib, rawWkIds, h, mkWkJob, List.map_map, Function.comp_def]

/-- The aggregator raw output is the three adapter outputs in order. -/
theorem aggregatorRaw_eq (env : FetchEnv) :
    aggregatorRaw env = greenhouseSearch env ++ leverSearch env ++ workableSearch env := by
  simp [aggregatorRaw, search_all_sources]

/-- Claim C3, amended: in every aggregator run every posting id is non-empty
— unconditionally, whatever the per-board responses are (first conjunct,
hypothesis-free); and the ids are pairwise distinct provided each board's
response carries pairwise-distinct item ids — the adapter tag plus the
underscore-free board identifier then prevents every cross-board and
cross-source collision, but duplicates inside one board's response survive
(see the counterexample), so the distinctness conjunct carries exactly that
proviso. -/
theorem aggregator_id_nonempty_and_nodup (env : FetchEnv) :
    (∀ j ∈ aggregatorRaw env, j.id ≠ []) ∧
    ((∀ c items, env.greenhouse c = some items → (items.map GhJob.id).Nodup) →
      (∀ c items, env.lever c = some items → (items.map LvJob.id).Nodup) →
      (∀ c items, env.workable c = some items → (items.map WkJob.shortcode).Nodup) →
      ((aggregatorRaw env).map Job.id).Nodup) := by
  constructor
  · intro j hj
    have hm : j.id ∈ (aggregatorRaw env).map Job.id := List.mem_map_of_mem _ hj
    rw [aggregatorRaw_eq, List.map_append, List.map_append] at hm
    rcases List.mem_append.mp hm with h | h
    · rcases List.mem_append.mp h with h | h
      · rw [ghIds_eq] at h
        obtain ⟨c, s, hshape⟩ := tagged_mem_shape h
        rw [hshape]
        simp
      · rw [lvIds_eq] at h
        obtain ⟨c, s, hshape⟩ := tagged_mem_shape h
        rw [hshape]
        simp
    · rw [wkIds_eq] at h
      obtain ⟨c, s, hshape⟩ := tagged_mem_shape h
      rw [hshape]
      simp
  intro hg hl hw
  have hgRaw : ∀ c ∈ greenhouse_companies, (rawGhIds env c).Nodup := by
    intro c _
    cases h : env.greenhouse c with
    | none => simp [rawGhIds, h]
    | some items => simpa [rawGhIds, h] using hg c items h
  have hlRaw : ∀ c ∈ lever_companies, (rawLvIds env c).Nodup := by
    intro c _
    cases h : env.lever c with
    | none => simp [rawLvIds, h]
    | some items => simpa [rawLvIds, h] using hl c items h
  have hwRaw : ∀ c ∈ workable_companies, (rawWkIds env c).Nodup := by
    intro c _
    cases h : env.workable c with
    | none => simp [rawWkIds, h]
    | some items => simpa [rawWkIds, h] using hw c items h
  have hGh : ((greenhouseSearch env).map Job.id).Nodup := by
    rw [ghIds_eq]
    exact tagged_flatMap_nodup _ _ (by decide) (by decide) _ hgRaw
  have hLv : ((leverSearch env).map Job.id).Nodup := by
    rw [lvIds_eq]
    exact tagged_flatMap_nodup _ _ (by decide) (by decide) _ hlRaw
  have hWk : ((workableSearch env).map Job.id).Nodup := by
    rw [wkIds_eq]
    exact tagged_flatMap_nodup _ _ (by decide) (by decide) _ hwRaw
  have hd1 : List.Disjoint ((greenhouseSearch env).map Job.id)
      ((leverSearch env).map Job.id) := by
    rw [ghIds_eq, lvIds_eq]
    intro x hx hy
    obtain ⟨c1, s1, rfl⟩ := tagged_mem_shape hx
    obtain ⟨c2, s2, heq⟩ := tagged_mem_shape hy
    injection heq with hhead _
    exact absurd hhead (by decide)
  have hd2 : List.Disjoint ((greenhouseSearch env).map Job.id)
      ((workableSearch env).map Job.id) := by
    rw [ghIds_eq, wkIds_eq]
    intro x hx hy
    obtain ⟨c1, s1, rfl⟩ := tagged_mem_shape hx
    obtain ⟨c2, s2, heq⟩ := tagged_mem_shape hy
    injection heq with hhead _
    exact absurd hhead (by decide)
  have hd3 : List.Disjoint ((leverSearch env).map Job.id)
      ((workableSearch env).map Job.id) := by
    rw [lvIds_eq, wkIds_eq]
    intro x hx hy
    obtain ⟨c1, s1, rfl⟩ := tagged_mem_shape hx
    obtain ⟨c2, s2, heq⟩ := tagged_mem_shape hy
    injection heq with hhead _
    exact absurd hhead (by decide)
  rw [aggregatorRaw_eq, List.map_append, List.map_append, List.nodup_append,
    List.nodup_append, List.disjoint_append_left]
  exact ⟨⟨hGh, hLv, hd1⟩, hWk, hd2, hd3⟩

/-- A concrete run for the witness of the amended claim C3: one Greenhouse
board answers with two distinct item ids, one Lever board with one item,
everything else fails. -/
def envW : FetchEnv :=
  { greenhouse := fun c =>
      if c = "airbnb".toList then
        some [ { id := "1".toList, title := "T1".toList, locationName := [],
                 absolute_url := [], content := [] }
             , { id := "2".toList, title := "T2".toList, locationName := [],
                 absolute_url := [], content := [] } ]
      else none
  , lever := fun c =>
      if c = "netflix".toList then
        some [ { id := "9".toList, text := [], catLocation := [],
                 hostedUrl := [], description := [] } ]
      else none
  , workable := fun _ => none }

/-- Witness for the amended claim C3 at the concrete run `envW`. -/
theorem aggregator_id_nonempty_and_nodup_witness :
    (∀ j ∈ aggregatorRaw envW, j.id ≠ []) ∧ ((aggregatorRaw envW).map Job.id).Nodup :=
  ⟨(aggregator_id_nonempty_and_nodup envW).1,
    (aggregator_id_nonempty_and_nodup envW).2
    (by
      intro c items h
      simp only [envW] at h
      split at h
      · rw [← Option.some.inj h]
        decide
      · exact Option.noConfusion h)
    (by
      intro c items h
      simp only [envW] at h
      split at h
      · rw [← Option.some.inj h]
        decide
      · exact Option.noConfusion h)
    (by
      intro c items h
      simp [envW] at h)⟩

/-- The keyword alternatives of the first negated-language pattern. -/
def reqKwList : List Str :=
  [['r','e','q','u','i','r','e','d'], ['n','e','e','d','e','d'],
   ['n','e','c','e','s','s','a','r','y']]

/-- An ASCII letter is not whitespace. -/
theorem alpha_not_ws {c : Char} (h : isAlphaC c = true) : isWsC c = false := by
  rw [Bool.eq_false_iff]
  intro hws
  simp only [isWsC, Bool.or_eq_true, beq_iff_eq] at hws
  rcases hws with ((((h' | h') | h') | h') | h') | h' <;> subst h' <;>
    exact absurd h (by decide)

/-- Taking while a predicate holds on a whole prefix stops at the first
failing character. -/
theorem takeWhile_all_append {p : Char → Bool} :
    ∀ (w : Str) (d : Char) (t : Str), (∀ c ∈ w, p c = true) → p d = false →
      (w ++ d :: t).takeWhile p = w := by
  intro w
  induction w with
  | nil => intro d t _ hd; simp [List.takeWhile_cons, hd]
  | cons a w' ih =>
    intro d t hw hd
    simp only [List.cons_append, List.takeWhile_cons, hw a (by simp), if_true]
    rw [ih d t (fun c hc => hw c (by simp [hc])) hd]

/-- Dropping while a predicate holds on a whole prefix drops exactly it. -/
theorem dropWhile_all_append {p : Char → Bool} :
    ∀ (w : Str) (d : Char) (t : Str), (∀ c ∈ w, p c = true) → p d = false →
      (w ++ d :: t).dropWhile p = d :: t := by
  intro w
  induction w with
  | nil => intro d t _ hd; simp [List.dropWhile_cons, hd]
  | cons a w' ih =>
    intro d t hw hd
    simp only [List.cons_append, List.dropWhile_cons, hw a (by simp), if_true]
    exact ih d t (fun c hc => hw c (by simp [hc])) hd

/-- A list is a prefix of itself followed by anything. -/
theorem isPrefixOf_append_self : ∀ (l t : Str), l.isPrefixOf (l ++ t) = true := by
  intro l
  induction l with
  | nil => intro t; simp [List.isPrefixOf]
  | cons a l' ih => intro t; simp [List.isPrefixOf, ih]

/-- A verified prefix splits the string. -/
theorem eq_append_of_isPrefixOf :
    ∀ (l s : Str), l.isPrefixOf s = true → s = l ++ s.drop l.length := by
  intro l
  induction l with
  | nil => intro s _; simp
  | cons a l' ih =>
    intro s h
    cases s with
    | nil => simp [List.isPrefixOf] at h
    | cons b s' =>
      simp only [List.isPrefixOf, Bool.and_eq_true, beq_iff_eq] at h
      obtain ⟨hab, hpre⟩ := h
      simp only [List.length_cons, List.drop_succ_cons, List.cons_append]
      rw [hab, ← ih s' hpre]

/-- On text starting with one of the three keywords, `tryKw` returns exactly
that keyword (no alternative is a prefix of another). -/
theorem tryKw_of_kw {kw : Str} (hkw : kw ∈ reqKwList) (v : Str) :
    tryKw (kw ++ v) = some kw := by
  simp only [reqKwList, List.mem_cons, List.not_mem_nil, or_false] at hkw
  rcases hkw with rfl | rfl | rfl
  · simp [tryKw, isPrefixOf_append_self]
  · have h1 : (['r','e','q','u','i','r','e','d'] : Str).isPrefixOf
        (['n','e','e','d','e','d'] ++ v) = false := rfl
    simp [tryKw, h1, isPrefixOf_append_self]
  · have h1 : (['r','e','q','u','i','r','e','d'] : Str).isPrefixOf
        (['n','e','c','e','s','s','a','r','y'] ++ v) = false := rfl
    have h2 : (['n','e','e','d','e','d'] : Str).isPrefixOf
        (['n','e','c','e','s','s','a','r','y'] ++ v) = false := rfl
    simp [tryKw, h1, h2, isPrefixOf_append_self]

/-- Soundness of `tryKw`: a returned keyword is one of the three and prefixes
the text. -/
theorem tryKw_sound {s kw : Str} (h : tryKw s = some kw) :
    kw ∈ reqKwList ∧ s = kw ++ s.drop kw.length := by
  simp only [tryKw] at h
  split_ifs at h with h1 h2 h3 <;>
    first
    | (obtain rfl := Option.some.inj h
       exact ⟨by simp [reqKwList], by
         first
         | exact eq_append_of_isPrefixOf _ _ h1
         | exact eq_append_of_isPrefixOf _ _ h2
         | exact eq_append_of_isPrefixOf _ _ h3⟩)
    | exact Option.noConfusion h

/-- Empty test on a list, as inequality. -/
theorem ne_nil_of_isEmpty_false {l : Str} (h : l.isEmpty = false) : l ≠ [] := by
  intro hn
  rw [hn] at h
  simp at h

/-- Soundness of the first-pattern matcher: a match at the head of `s`
decomposes `s` into the literal `no`, a non-empty whitespace run, the
non-empty all-letter capture, a non-empty whitespace run, one of the three
keywords, and the rest. -/
theorem matchR1_sound :
    ∀ {s g rest : Str}, matchR1 s = some (g, rest) →
      g ≠ [] ∧ (∀ c ∈ g, isAlphaC c = true) ∧
      ∃ w1 w2 kw, kw ∈ reqKwList ∧
        w1 ≠ [] ∧ (∀ c ∈ w1, isWsC c = true) ∧
        w2 ≠ [] ∧ (∀ c ∈ w2, isWsC c = true) ∧
        s = 'n' :: 'o' :: (w1 ++ g ++ w2 ++ kw ++ rest) := by
  intro s g rest h
  rw [matchR1.eq_def] at h
  split at h
  next r0 =>
    simp only [] at h
    split_ifs at h with hcond
    split at h
    next kw hkw =>
      obtain ⟨hg, hrest⟩ := Prod.mk.inj (Option.some.inj h)
      subst hg
      subst hrest
      simp only [Bool.or_eq_true, not_or, Bool.not_eq_true] at hcond
      obtain ⟨⟨h1, h2⟩, h3⟩ := hcond
      obtain ⟨hkwmem, hr3⟩ := tryKw_sound hkw
      refine ⟨?_, ?_, List.takeWhile isWsC r0,
        List.takeWhile isWsC (List.dropWhile isAlphaC (List.dropWhile isWsC r0)), kw,
        hkwmem, ?_, ?_, ?_, ?_, ?_⟩
      · exact ne_nil_of_isEmpty_false h2
      · intro c hc; exact List.mem_takeWhile_imp hc
      · exact ne_nil_of_isEmpty_false h1
      · intro c hc; exact List.mem_takeWhile_imp hc
      · exact ne_nil_of_isEmpty_false h3
      · intro c hc; exact List.mem_takeWhile_imp hc
      · have hdec : r0 = List.takeWhile isWsC r0 ++
            (List.takeWhile isAlphaC (List.dropWhile isWsC r0) ++
              (List.takeWhile isWsC (List.dropWhile isAlphaC (List.dropWhile isWsC r0)) ++
                (kw ++ List.drop kw.length
                  (List.dropWhile isWsC (List.dropWhile isAlphaC (List.dropWhile isWsC r0)))))) := by
          conv_lhs => rw [← List.takeWhile_append_dropWhile (p := isWsC) (l := r0)]
          congr 1
          conv_lhs =>
            rw [← List.takeWhile_append_dropWhile (p := isAlphaC)
              (l := List.dropWhile isWsC r0)]
          congr 1
          conv_lhs =>
            rw [← List.takeWhile_append_dropWhile (p := isWsC)
              (l := List.dropWhile isAlphaC (List.dropWhile isWsC r0))]
          congr 1
        conv_lhs => rw [hdec]
        simp [List.append_assoc]
    next hkw => exact Option.noConfusion h
  next => exact Option.noConfusion h

/-- Soundness of the non-overlapping scan of the first pattern: every capture
is a non-empty all-letter word and the scanned text (after the skip prefix)
contains the full matched shape around it. -/
theorem scanR1_sound :
    ∀ (l : Str) (n : Nat) (g : Str), g ∈ scanMatches matchR1 n l →
      g ≠ [] ∧ (∀ c ∈ g, isAlphaC c = true) ∧
      ∃ u w1 w2 kw v, kw ∈ reqKwList ∧
        w1 ≠ [] ∧ (∀ c ∈ w1, isWsC c = true) ∧
        w2 ≠ [] ∧ (∀ c ∈ w2, isWsC c = true) ∧
        l.drop n = u ++ 'n' :: 'o' :: (w1 ++ g ++ w2 ++ kw ++ v) := by
  intro l
  induction l with
  | nil => intro n g hg; simp [scanMatches] at hg
  | cons c cs ih =>
    intro n g hg
    cases n with
    | succ n' =>
      have h' := ih n' g (by simpa [scanMatches] using hg)
      simpa [List.drop_succ_cons] using h'
    | zero =>
      cases hm : matchR1 (c :: cs) with
      | none =>
        simp only [scanMatches, hm] at hg
        obtain ⟨hne, halpha, u, w1, w2, kw, v, hkw, hw1, hw1p, hw2, hw2p, hdec⟩ :=
          ih 0 g hg
        refine ⟨hne, halpha, c :: u, w1, w2, kw, v, hkw, hw1, hw1p, hw2, hw2p, ?_⟩
        simp only [List.drop_zero] at hdec ⊢
        rw [List.cons_append]
        exact congrArg (List.cons c) hdec
      | some gr =>
        obtain ⟨g0, rest⟩ := gr
        obtain ⟨hg0ne, hg0a, w1, w2, kw, hkw, hw1, hw1p, hw2, hw2p, hs⟩ :=
          matchR1_sound hm
        obtain ⟨hc, hcs⟩ := List.cons.inj hs
        simp only [scanMatches, hm] at hg
        rcases List.mem_cons.mp hg with rfl | hgtail
        · refine ⟨hg0ne, hg0a, [], w1, w2, kw, rest, hkw, hw1, hw1p, hw2, hw2p, ?_⟩
          simpa using hs
        · have hpre : cs = ('o' :: (w1 ++ g0 ++ w2 ++ kw)) ++ rest := by
            rw [hcs]
            simp [List.append_assoc]
          have hdropk : cs.drop (cs.length - rest.length) = rest := by
            rw [hpre, List.length_append, Nat.add_sub_cancel, List.drop_left]
          obtain ⟨hne, halpha, u, w1', w2', kw', v', hkw', hw1', hw1p', hw2', hw2p', hdec⟩ :=
            ih (cs.length - rest.length) g hgtail
          rw [hdropk] at hdec
          refine ⟨hne, halpha, ('n' :: 'o' :: (w1 ++ g0 ++ w2 ++ kw)) ++ u,
            w1', w2', kw', v', hkw', hw1', hw1p', hw2', hw2p', ?_⟩
          simp only [List.drop_zero]
          rw [hs, hdec]
          simp [List.append_assoc]

/-- If the matcher succeeds somewhere in the text, the scan finds at least
one match. -/
theorem scanR1_ne_nil :
    ∀ (u s : Str), (∃ r, matchR1 s = some r) → scanMatches matchR1 0 (u ++ s) ≠ [] := by
  intro u
  induction u with
  | nil =>
    intro s hr
    obtain ⟨⟨g, rest⟩, hm⟩ := hr
    cases s with
    | nil => simp [matchR1] at hm
    | cons c cs =>
      simp only [List.nil_append, scanMatches, hm]
      simp
  | cons c u' ih =>
    intro s hr
    rw [List.cons_append]
    cases hm : matchR1 (c :: (u' ++ s)) with
    | none =>
      simp only [scanMatches, hm]
      exact ih s hr
    | some gr =>
      obtain ⟨g, rest⟩ := gr
      simp only [scanMatches, hm]
      simp

/-- The matcher succeeds on a literal single-space occurrence
`no X <kw>` (the claim's substring shape) at the head of the text. -/
theorem matchR1_occurrence {X kw : Str} (v : Str) (hX : X ≠ [])
    (hXa : ∀ c ∈ X, isAlphaC c = true) (hkw : kw ∈ reqKwList) :
    ∃ r, matchR1 ('n' :: 'o' :: ' ' :: (X ++ ' ' :: (kw ++ v))) = some r := by
  obtain ⟨x, X', rfl⟩ := List.exists_cons_of_ne_nil hX
  have hxa : isAlphaC x = true := hXa x (by simp)
  have hxw : isWsC x = false := alpha_not_ws hxa
  have hkw' := hkw
  simp only [reqKwList, List.mem_cons, List.not_mem_nil, or_false] at hkw'
  have hkwhead : ∃ k ks, kw = k :: ks ∧ isWsC k = false ∧ isAlphaC k = true := by
    rcases hkw' with rfl | rfl | rfl
    · exact ⟨_, _, rfl, by decide, by decide⟩
    · exact ⟨_, _, rfl, by decide, by decide⟩
    · exact ⟨_, _, rfl, by decide, by decide⟩
  obtain ⟨k, ks, rfl, hkws, hka⟩ := hkwhead
  have h1 : (' ' :: ((x :: X') ++ ' ' :: ((k :: ks) ++ v))).takeWhile isWsC = [' '] := by
    simp [List.takeWhile_cons, hxw, show isWsC ' ' = true from rfl]
  have h2 : (' ' :: ((x :: X') ++ ' ' :: ((k :: ks) ++ v))).dropWhile isWsC
      = (x :: X') ++ ' ' :: ((k :: ks) ++ v) := by
    simp [List.dropWhile_cons, hxw, show isWsC ' ' = true from rfl]
  have h3 : ((x :: X') ++ ' ' :: ((k :: ks) ++ v)).takeWhile isAlphaC = x :: X' :=
    takeWhile_all_append (x :: X') ' ' ((k :: ks) ++ v) hXa (by decide)
  have h4 : ((x :: X') ++ ' ' :: ((k :: ks) ++ v)).dropWhile isAlphaC
      = ' ' :: ((k :: ks) ++ v) :=
    dropWhile_all_append (x :: X') ' ' ((k :: ks) ++ v) hXa (by decide)
  have h5 : (' ' :: ((k :: ks) ++ v)).takeWhile isWsC = [' '] := by
    simp [List.takeWhile_cons, hkws, show isWsC ' ' = true from rfl]
  have h6 : (' ' :: ((k :: ks) ++ v)).dropWhile isWsC = (k :: ks) ++ v := by
    simp [List.dropWhile_cons, hkws, show isWsC ' ' = true from rfl]
  refine ⟨(x :: X', ((k :: ks) ++ v).drop (k :: ks).length), ?_⟩
  rw [matchR1.eq_def]
  simp only [h1, h2, h3, h4, h5, h6, List.isEmpty_cons, Bool.or_self, Bool.false_or]
  rw [if_neg (by simp)]
  rw [tryKw_of_kw hkw v]

/-- Folding with an accumulator-extending step only ever grows the list. -/
theorem subset_foldl_of_step {step : List Str → Str → List Str}
    (hstep : ∀ acc g, acc ⊆ step acc g) :
    ∀ (l : List Str) (acc : List Str), acc ⊆ l.foldl step acc := by
  intro l
  induction l with
  | nil => intro acc x hx; simpa using hx
  | cons g l' ih =>
    intro acc x hx
    rw [List.foldl_cons]
    exact ih (step acc g) (hstep acc g hx)

/-- Every title-cased capture of the first scan ends up in the final
excluded-languages list (the later loops only append). -/
theorem mem_excludeLangs_of_capture {ql x : Str}
    (hx : x ∈ scanMatches matchR1 0 ql) :
    titleS x ∈ excludeLangs ql := by
  have h1 : titleS x ∈ exLoop1 ql := List.mem_map_of_mem titleS hx
  have h2 : exLoop1 ql ⊆ exLoop2 ql (exLoop1 ql) := by
    unfold exLoop2
    refine subset_foldl_of_step ?_ _ _
    intro acc g y hy
    dsimp only
    split
    · exact List.mem_append_left _ hy
    · exact hy
  have h3 : exLoop2 ql (exLoop1 ql) ⊆ excludeLangs ql := by
    unfold excludeLangs exLoop3
    refine subset_foldl_of_step ?_ _ _
    intro acc g y hy
    dsimp only
    split
    · exact List.mem_append_left _ hy
    · exact hy
  exact h3 (h2 h1)

/-- Claim C5, amended: for every query whose lowercased text contains a
single-space occurrence `no X required|needed|necessary` (X a non-empty
alphabetic word), the heuristic extractor's excluded-languages list contains
the title-cased capture `W` of some match of the same pattern (with arbitrary
whitespace) present in the query.  When no earlier non-overlapping match of
the scan consumes part of the occurrence, `W` is `X` itself, but an
overlapping earlier match may shift the capture (see the counterexample), so
only the existential form holds for every query. -/
theorem excluded_language_of_negation_pattern (q X kw : Str)
    (hkw : kw ∈ reqKwList) (hX : X ≠ []) (hXa : ∀ c ∈ X, isAlphaC c = true)
    (hocc : ∃ u v, lowerS q = u ++ 'n' :: 'o' :: ' ' :: (X ++ ' ' :: (kw ++ v))) :
    ∃ W, W ≠ [] ∧ (∀ c ∈ W, isAlphaC c = true) ∧
      (∃ u w1 w2 kw' v, kw' ∈ reqKwList ∧
        w1 ≠ [] ∧ (∀ c ∈ w1, isWsC c = true) ∧
        w2 ≠ [] ∧ (∀ c ∈ w2, isWsC c = true) ∧
        lowerS q = u ++ 'n' :: 'o' :: (w1 ++ W ++ w2 ++ kw' ++ v)) ∧
      titleS W ∈ (local_parse q).exclude_language.getD [] := by
  obtain ⟨u, v, hql⟩ := hocc
  have hmatch := matchR1_occurrence v hX hXa hkw
  have hscan : scanMatches matchR1 0 (lowerS q) ≠ [] := by
    rw [hql]
    exact scanR1_ne_nil u _ hmatch
  obtain ⟨g0, gs, hsc⟩ := List.exists_cons_of_ne_nil hscan
  have hg0 : g0 ∈ scanMatches matchR1 0 (lowerS q) := by rw [hsc]; simp
  obtain ⟨hne, halpha, u', w1, w2, kw', v', hkw', hw1, hw1p, hw2, hw2p, hdec⟩ :=
    scanR1_sound (lowerS q) 0 g0 hg0
  have hmem : titleS g0 ∈ excludeLangs (lowerS q) := mem_excludeLangs_of_capture hg0
  have hfield : (local_parse q).exclude_language = some (excludeLangs (lowerS q)) := by
    simp only [local_parse]
    rw [if_neg]
    intro hE
    rw [List.isEmpty_eq_true] at hE
    exact (List.ne_nil_of_mem hmem) hE
  refine ⟨g0, hne, halpha,
    ⟨u', w1, w2, kw', v', hkw', hw1, hw1p, hw2, hw2p, by simpa using hdec⟩, ?_⟩
  rw [hfield]
  simpa using hmem

/-- Witness for the amended claim C5 at the flagship query. -/
theorem excluded_language_of_negation_pattern_witness :
    ∃ W, W ≠ [] ∧ (∀ c ∈ W, isAlphaC c = true) ∧
      (∃ u w1 w2 kw' v, kw' ∈ reqKwList ∧
        w1 ≠ [] ∧ (∀ c ∈ w1, isWsC c = true) ∧
        w2 ≠ [] ∧ (∀ c ∈ w2, isWsC c = true) ∧
        lowerS "nurse in Utrecht, no Dutch required".toList
          = u ++ 'n' :: 'o' :: (w1 ++ W ++ w2 ++ kw' ++ v)) ∧
      titleS W ∈ (local_parse "nurse in Utrecht, no Dutch required".toList).exclude_language.getD [] :=
  excluded_language_of_negation_pattern
    "nurse in Utrecht, no Dutch required".toList
    "dutch".toList
    ['r','e','q','u','i','r','e','d']
    (by decide)
    (by decide)
    (by decide)
    ⟨"nurse in utrecht, ".toList, [], by decide⟩
